import Mathlib

set_option linter.unusedVariables false

namespace GptMemory

/-! ## Data model

The memory engine (the tovana `MemoryManager` / `AsyncMemoryManager` used by the
cookbooks) is not part of this repository's sources; every definition below that is
marked `Modelled from the spec` is a shallow embedding of the engine as the spec
describes it.  The cookbook code itself (the async helper, the LangGraph `route`
and `update_memory` node) is embedded directly from the notebooks further down. -/

/-- Modelled from the spec: a Fact is an atomic durable statement about an entity,
with normalized and raw text, a creation stamp and a provenance reference. -/
structure Fact where
  normalized_text : String
  raw_text : String
  created_at : Nat
  provenance : String
deriving DecidableEq, Repr

/-- Modelled from the spec: a Belief is a higher-order inference synthesized from
the current fact set, with supporting fact references. -/
structure Belief where
  text : String
  supporting_fact_refs : List String
  created_at : Nat
deriving DecidableEq, Repr

/-- Modelled from the spec: a MemoryRecord holds an entity's facts, optional
beliefs, and a version stamp. -/
structure MemoryRecord where
  entity_id : String
  facts : List Fact
  beliefs : List Belief
  version : Nat
deriving DecidableEq, Repr

/-- Modelled from the spec: the construction-time configuration of a manager
instance (the backend credential/provider/temperature/persona fields are opaque
to the engine's logic and are omitted from the model). -/
structure ManagerConfig where
  include_beliefs : Bool
  max_facts : Nat
deriving DecidableEq, Repr

/-- Modelled from the spec: the error taxonomy of an update cycle. -/
inductive MemError where
  | BackendError
  | ExtractionFailed
  | MalformedResponse
deriving DecidableEq, Repr

/-- Modelled from the spec: candidate fact operations produced by the extractor:
`add`, and `replace(old_ref, new)` referencing an existing fact. -/
inductive FactOp where
  | add (f : Fact)
  | replace (old_ref : String) (f : Fact)
deriving DecidableEq, Repr

/-- Modelled from the spec: normalization of fact text is case/whitespace
insensitive. -/
def normalize (s : String) : String :=
  String.mk ((s.data.filter (fun c => !c.isWhitespace)).map Char.toLower)

/-- Normalize the text carried by an incoming fact before comparing it to the
existing facts of a record. -/
def normFact (f : Fact) : Fact :=
  { f with normalized_text := normalize f.raw_text }

/-- Modelled from the spec: the extractor is a stateless transform from the
cycle's messages and the current fact snapshot to candidate fact operations;
it can fail with any `MemError`. -/
abbrev Extractor := List String → List Fact → Except MemError (List FactOp)

/-- Modelled from the spec: belief regeneration is a pure function of the
post-merge fact snapshot, realized through a backend call that can fail. -/
abbrev BeliefGen := List Fact → Except MemError (List Belief)

/-! ## Consolidator -/

/-- Modelled from the spec: apply one fact operation.  An `add` is applied only
when its normalized text is novel; a `replace` substitutes the referenced fact,
keeping the normalized-text uniqueness invariant. -/
def applyOp (facts : List Fact) : FactOp → List Fact
  | .add f =>
    let f := normFact f
    if facts.any (fun g => g.normalized_text == f.normalized_text) then facts
    else facts ++ [f]
  | .replace old_ref f =>
    let f := normFact f
    let rest := facts.filter (fun g => g.normalized_text != old_ref)
    if rest.any (fun g => g.normalized_text == f.normalized_text) then rest
    else rest ++ [f]

/-- Apply a list of fact operations in order. -/
def applyOps (facts : List Fact) (ops : List FactOp) : List Fact :=
  ops.foldl applyOp facts

/-- Ordering of facts by creation stamp, used by the eviction policy. -/
def factLe (a b : Fact) : Prop := a.created_at ≤ b.created_at

instance : DecidableRel factLe := fun a b => Nat.decLe a.created_at b.created_at

instance : IsTotal Fact factLe := ⟨fun a b => Nat.le_total a.created_at b.created_at⟩

instance : IsTrans Fact factLe := ⟨fun _ _ _ h1 h2 => Nat.le_trans h1 h2⟩

/-- Modelled from the spec: enforce `max_facts` by evicting oldest-`created_at`
first until the bound is satisfied; when the bound already holds the facts are
kept as they are. -/
def keepNewest (maxFacts : Nat) (facts : List Fact) : List Fact :=
  if facts.length ≤ maxFacts then facts
  else (List.insertionSort factLe facts).drop (facts.length - maxFacts)

/-- The fact part of one consolidation: merge the candidate operations into the
current facts, then enforce the `max_facts` bound. -/
def consolidateFacts (maxFacts : Nat) (facts : List Fact) (ops : List FactOp) :
    List Fact :=
  keepNewest maxFacts (applyOps facts ops)

/-- A call to the text-generation backend collaborator, recorded for
instrumentation: one extraction call per cycle, plus belief regeneration when
beliefs are enabled. -/
inductive BackendCall where
  | extraction (messages : List String) (snapshot : List Fact)
  | beliefRegen (facts : List Fact)
deriving DecidableEq, Repr

/-- Modelled from the spec: consolidation merges the candidate operations,
enforces `max_facts`, and, when `include_beliefs` is set, regenerates the full
belief set from the post-merge snapshot (full replace).  Any failure aborts the
cycle.  The second component is the list of backend calls issued. -/
def consolidate (cfg : ManagerConfig) (bg : BeliefGen) (rec : MemoryRecord)
    (ops : List FactOp) : Except MemError MemoryRecord × List BackendCall :=
  let kept := consolidateFacts cfg.max_facts rec.facts ops
  if cfg.include_beliefs then
    match bg kept with
    | .error e => (.error e, [.beliefRegen kept])
    | .ok bs =>
        (.ok { rec with facts := kept, beliefs := bs, version := rec.version + 1 },
         [.beliefRegen kept])
  else
    (.ok { rec with facts := kept, beliefs := [], version := rec.version + 1 }, [])

/-! ## MemoryStore and the update cycle -/

/-- Modelled from the spec: the store is a mapping from entity id to its
MemoryRecord (default in-process mapping). -/
abbrev MemoryStore := String → Option MemoryRecord

/-- The store with no records. -/
def emptyStore : MemoryStore := fun _ => none

/-- The record lazily created on first update for an entity id. -/
def initRecord (id : String) : MemoryRecord :=
  { entity_id := id, facts := [], beliefs := [], version := 0 }

/-- Read the record of an entity, lazily creating the empty record. -/
def getRecord (store : MemoryStore) (id : String) : MemoryRecord :=
  (store id).getD (initRecord id)

/-- Commit a record for an entity. -/
def putRecord (store : MemoryStore) (id : String) (rec : MemoryRecord) :
    MemoryStore :=
  fun k => if k = id then some rec else store k

/-- Outcome of one update cycle: the resulting store, the surfaced error if the
cycle failed, and the backend calls issued during the cycle. -/
structure CycleOut where
  store : MemoryStore
  err : Option MemError
  calls : List BackendCall

/-- Modelled from the spec: one extract→consolidate→commit cycle for one entity,
run under the entity's guard.  Exactly one extraction call is issued over the
whole message list; any failure before commit leaves the store untouched. -/
def runCycle (cfg : ManagerConfig) (ex : Extractor) (bg : BeliefGen)
    (store : MemoryStore) (id : String) (messages : List String) : CycleOut :=
  let current := getRecord store id
  let ecall := BackendCall.extraction messages current.facts
  match ex messages current.facts with
  | .error e => ⟨store, some e, [ecall]⟩
  | .ok ops =>
    let c := consolidate cfg bg current ops
    match c.1 with
    | .error e => ⟨store, some e, ecall :: c.2⟩
    | .ok newRec => ⟨putRecord store id newRec, none, ecall :: c.2⟩

/-- Modelled from the spec: `update` commits one cycle for a single message. -/
def update_memory (cfg : ManagerConfig) (ex : Extractor) (bg : BeliefGen)
    (store : MemoryStore) (id : String) (msg : String) : CycleOut :=
  runCycle cfg ex bg store id [msg]

/-- Modelled from the spec: `batch_update` performs exactly one cycle over the
entire message list. -/
def batch_update_memory (cfg : ManagerConfig) (ex : Extractor) (bg : BeliefGen)
    (store : MemoryStore) (id : String) (messages : List String) : CycleOut :=
  runCycle cfg ex bg store id messages

/-- One step of issuing sequential single-message updates: thread the store and
accumulate the backend calls. -/
def seqStep (cfg : ManagerConfig) (ex : Extractor) (bg : BeliefGen) (id : String)
    (acc : CycleOut) (msg : String) : CycleOut :=
  let out := runCycle cfg ex bg acc.store id [msg]
  ⟨out.store, out.err, acc.calls ++ out.calls⟩

/-- k sequential `update` calls over a message list, as the async cookbook's
per-message loop issues them. -/
def sequentialUpdates (cfg : ManagerConfig) (ex : Extractor) (bg : BeliefGen)
    (store : MemoryStore) (id : String) (messages : List String) : CycleOut :=
  messages.foldl (seqStep cfg ex bg id) ⟨store, none, []⟩

/-- Recognize an extraction call in a backend-call trace. -/
def isExtractionCall : BackendCall → Bool
  | .extraction _ _ => true
  | .beliefRegen _ => false

/-- Number of extraction calls in a backend-call trace. -/
def extractionCount (calls : List BackendCall) : Nat :=
  (calls.filter isExtractionCall).length

/-- Run a script of update cycles (entity id with that cycle's messages), as a
sequence of committed updates against the store. -/
def runScript (cfg : ManagerConfig) (ex : Extractor) (bg : BeliefGen)
    (store : MemoryStore) : List (String × List String) → MemoryStore
  | [] => store
  | (id, msgs) :: rest =>
      runScript cfg ex bg (runCycle cfg ex bg store id msgs).store rest

/-- The record committed by one cycle, or `none` when the cycle fails. -/
def commitResult (cfg : ManagerConfig) (ex : Extractor) (bg : BeliefGen)
    (rec : MemoryRecord) (messages : List String) : Option MemoryRecord :=
  match ex messages rec.facts with
  | .error _ => none
  | .ok ops =>
    match (consolidate cfg bg rec ops).1 with
    | .error _ => none
    | .ok newRec => some newRec

/-- The normalized-text uniqueness invariant of a fact list. -/
def DedupFacts (facts : List Fact) : Prop :=
  List.Pairwise (fun f g => f.normalized_text ≠ g.normalized_text) facts

/-- Dedup invariant over the whole store. -/
def StoreDedup (store : MemoryStore) : Prop :=
  ∀ id, DedupFacts (getRecord store id).facts

/-- Beliefs-disabled invariant over the whole store. -/
def StoreNoBeliefs (store : MemoryStore) : Prop :=
  ∀ id, (getRecord store id).beliefs = []

/-! ## Reads -/

/-- Render a fact list as text, one fact per line. -/
def renderFacts (facts : List Fact) : String :=
  String.intercalate "\n" (facts.map (fun f => f.raw_text))

/-- Render a belief list as text, one belief per line. -/
def renderBeliefs (bs : List Belief) : String :=
  String.intercalate "\n" (bs.map (fun b => b.text))

/-- Modelled from the spec: with a query the renderer may reorder/filter facts by
relevance (left to the implementation); the model uses the identity ranking,
which the spec permits.  Read-only in any case. -/
def relevantFacts (facts : List Fact) (q : Option String) : List Fact := facts

/-- Modelled from the spec: `get_context` renders the current fact set (and
beliefs, when present) as text; empty text when no record exists. -/
def get_memory_context (store : MemoryStore) (id : String) (q : Option String) :
    String :=
  match store id with
  | none => ""
  | some r =>
      renderFacts (relevantFacts r.facts q) ++
        (if r.beliefs.isEmpty then "" else "\n" ++ renderBeliefs r.beliefs)

/-- Modelled from the spec: `get_beliefs` returns the current belief sequence of
the entity's record; the empty sequence when no record exists. -/
def get_beliefs (store : MemoryStore) (id : String) : List Belief :=
  (getRecord store id).beliefs

/-! ## Per-entity serialization model

The spec's concurrent mode suspends only at backend-call boundaries, and the
per-entity guard covers the whole extract→consolidate→commit sequence.  For one
entity this is modelled as a transition system: each of `n` update tasks first
acquires the entity guard (taking a snapshot of the committed record), then — in
a later, separately scheduled step — extracts against that snapshot, consolidates,
commits and releases.  A scheduler is an arbitrary list of task indices. -/

/-- The committed record produced by one guarded cycle starting from `rec`:
unchanged when extraction or consolidation fails, the consolidated record
otherwise. -/
def cycleRecord (cfg : ManagerConfig) (ex : Extractor) (bg : BeliefGen)
    (rec : MemoryRecord) (messages : List String) : MemoryRecord :=
  match ex messages rec.facts with
  | .error _ => rec
  | .ok ops =>
    match (consolidate cfg bg rec ops).1 with
    | .error _ => rec
    | .ok newRec => newRec

/-- Phase of one update task: waiting for the guard, holding the guard with the
record snapshot it read at acquisition, or finished. -/
inductive TaskPhase where
  | pending
  | locked (snap : MemoryRecord)
  | finished
deriving DecidableEq, Repr

/-- State of the single-entity concurrent system: the committed record, the
current guard holder, each task's phase, and the indices of the committed tasks
in commit order. -/
structure TaskSys where
  record : MemoryRecord
  holder : Option Nat
  phase : Nat → TaskPhase
  committed : List Nat

/-- All tasks pending, guard free, nothing committed. -/
def initSys (rec0 : MemoryRecord) : TaskSys :=
  { record := rec0, holder := none, phase := fun _ => .pending, committed := [] }

/-- One scheduler step giving task `i` a turn: a pending task acquires the free
guard (blocking while it is held); the guard holder runs its cycle against its
snapshot, commits atomically and releases; finished tasks and out-of-range
indices do nothing. -/
def taskStep (cfg : ManagerConfig) (ex : Extractor) (bg : BeliefGen)
    (msgsOf : Nat → List String) (n : Nat) (s : TaskSys) (i : Nat) : TaskSys :=
  if i < n then
    match s.phase i with
    | .pending =>
      match s.holder with
      | none =>
          { record := s.record, holder := some i,
            phase := fun j => if j = i then .locked s.record else s.phase j,
            committed := s.committed }
      | some _ => s
    | .locked snap =>
        { record := cycleRecord cfg ex bg snap (msgsOf i),
          holder := none,
          phase := fun j => if j = i then .finished else s.phase j,
          committed := s.committed ++ [i] }
    | .finished => s
  else s

/-- Run the system under an arbitrary schedule. -/
def runSched (cfg : ManagerConfig) (ex : Extractor) (bg : BeliefGen)
    (msgsOf : Nat → List String) (n : Nat) (rec0 : MemoryRecord)
    (sched : List Nat) : TaskSys :=
  sched.foldl (taskStep cfg ex bg msgsOf n) (initSys rec0)

/-- Sequential application of the updates of the listed tasks, in list order. -/
def seqApply (cfg : ManagerConfig) (ex : Extractor) (bg : BeliefGen)
    (msgsOf : Nat → List String) (rec0 : MemoryRecord) (order : List Nat) :
    MemoryRecord :=
  order.foldl (fun r i => cycleRecord cfg ex bg r (msgsOf i)) rec0

/-- Invariant of the single-entity task system: the committed record is the
sequential application of the committed tasks in commit order; any task holding
a snapshot is the guard holder and its snapshot is the current record; committed
tasks are distinct, exactly the finished ones, and in range. -/
def SysInv (cfg : ManagerConfig) (ex : Extractor) (bg : BeliefGen)
    (msgsOf : Nat → List String) (n : Nat) (rec0 : MemoryRecord)
    (s : TaskSys) : Prop :=
  s.record = seqApply cfg ex bg msgsOf rec0 s.committed
  ∧ (∀ i snap, s.phase i = .locked snap → s.holder = some i ∧ snap = s.record)
  ∧ s.committed.Nodup
  ∧ (∀ i, (s.phase i = .finished ↔ i ∈ s.committed))
  ∧ (∀ i, s.phase i ≠ .pending → i < n)

/-! ## Cookbook code embedded from src/cookbooks/mistralai_async_agent.ipynb -/

/-- A call made by the cookbooks against the memory manager facade. -/
inductive ManagerCall where
  | updateMemoryCall (user_id : String) (message : String)
  | getMemoryContextCall (user_id : String)
  | getBeliefsCall (user_id : String)
deriving DecidableEq, Repr

/-- Embedded from the async cookbook's `update_user_memory`: loop over the
messages awaiting one `update_memory` call per message, then read the memory
context, then the beliefs.  The value is the trace of facade calls in the order
they are awaited. -/
def update_user_memory (user_id : String) : List String → List ManagerCall
  | [] => [.getMemoryContextCall user_id, .getBeliefsCall user_id]
  | m :: rest => .updateMemoryCall user_id m :: update_user_memory user_id rest

/-- Message types as LangGraph tags them; `route` counts the human ones. -/
inductive MsgType where
  | human
  | ai
  | tool
deriving DecidableEq, Repr

/-- Embedded from the LangGraph cookbook's `route`: the number of human messages
in the state's history. -/
def numHumanInput (messages : List MsgType) : Nat :=
  (messages.filter (fun m => m = MsgType.human)).length

/-- The three outcomes of the cookbook's `route` conditional edge (`endRoute`
models LangGraph's END). -/
inductive RouteResult where
  | notEnoughInfo
  | enoughUserInput
  | endRoute
deriving DecidableEq, Repr

/-- Embedded from the LangGraph cookbook's `route`: fewer than 5 human inputs →
collect more input; exactly 5 → go to the `update_memory` node; otherwise END. -/
def route (messages : List MsgType) : RouteResult :=
  if numHumanInput messages < 5 then .notEnoughInfo
  else if numHumanInput messages = 5 then .enoughUserInput
  else .endRoute

/-- Result of the LangGraph cookbook's `update_memory` node: the messages it
returns and the `info` mapping entries it adds (fresh key, entry dict). -/
structure UpdateMemoryOut where
  newMessages : List String
  info : List (String × List (String × String))

/-- Embedded from the LangGraph cookbook's `update_memory` node: batch-update
memory with all state messages at once, read the rendered memory context, and
store under a fresh uuid key a singleton dict mapping "fact" to that context. -/
def update_memory_node (cfg : ManagerConfig) (ex : Extractor) (bg : BeliefGen)
    (store : MemoryStore) (user_id freshKey : String) (messages : List String) :
    UpdateMemoryOut × MemoryStore :=
  let store2 := (batch_update_memory cfg ex bg store user_id messages).store
  let memory_context := get_memory_context store2 user_id none
  (⟨["memory saved"], [(freshKey, [("fact", memory_context)])]⟩, store2)

/-! ## Theorems -/

theorem extractionCount_append (a b : List BackendCall) :
    extractionCount (a ++ b) = extractionCount a + extractionCount b := by
  simp [extractionCount, List.filter_append]

theorem extractionCount_consolidate (cfg : ManagerConfig) (bg : BeliefGen)
    (rec : MemoryRecord) (ops : List FactOp) :
    extractionCount (consolidate cfg bg rec ops).2 = 0 := by
  unfold consolidate
  dsimp only
  split
  · split <;> simp [extractionCount, isExtractionCall]
  · simp [extractionCount]

theorem extractionCount_cons_extraction (m : List String) (snap : List Fact)
    (rest : List BackendCall) :
    extractionCount (BackendCall.extraction m snap :: rest) =
      extractionCount rest + 1 := by
  simp [extractionCount, isExtractionCall, List.filter_cons]

theorem runCycle_calls (cfg : ManagerConfig) (ex : Extractor) (bg : BeliefGen)
    (store : MemoryStore) (id : String) (messages : List String) :
    extractionCount (runCycle cfg ex bg store id messages).calls = 1 := by
  unfold runCycle
  dsimp only
  split
  · simp [extractionCount, isExtractionCall]
  · split <;>
    · dsimp only
      rw [extractionCount_cons_extraction, extractionCount_consolidate]

theorem seq_foldl_calls (cfg : ManagerConfig) (ex : Extractor) (bg : BeliefGen)
    (id : String) (msgs : List String) : ∀ acc : CycleOut,
    extractionCount (msgs.foldl (seqStep cfg ex bg id) acc).calls =
      extractionCount acc.calls + msgs.length := by
  induction msgs with
  | nil => intro acc; simp
  | cons m ms ih =>
    intro acc
    rw [List.foldl_cons, ih]
    have hstep : (seqStep cfg ex bg id acc m).calls =
        acc.calls ++ (runCycle cfg ex bg acc.store id [m]).calls := rfl
    rw [hstep, extractionCount_append, runCycle_calls]
    simp
    omega

theorem runCycle_err_store (cfg : ManagerConfig) (ex : Extractor) (bg : BeliefGen)
    (store : MemoryStore) (id : String) (messages : List String) (e : MemError)
    (h : (runCycle cfg ex bg store id messages).err = some e) :
    (runCycle cfg ex bg store id messages).store = store := by
  unfold runCycle at h ⊢
  dsimp only at h ⊢
  cases hex : ex messages (getRecord store id).facts with
  | error e2 => rfl
  | ok ops =>
    rw [hex] at h
    dsimp only at h ⊢
    cases hc : (consolidate cfg bg (getRecord store id) ops).1 with
    | error e2 => rfl
    | ok newRec =>
      rw [hc] at h
      simp at h

/-- C1: `batch_update(id, [m1..mk])` performs exactly one
extract→consolidate→commit cycle, issuing exactly one extraction call to the
backend, whereas k sequential `update` calls for the same messages issue k
extraction calls. -/
theorem batch_update_single_extraction (cfg : ManagerConfig) (ex : Extractor)
    (bg : BeliefGen) (store : MemoryStore) (id : String) (messages : List String) :
    extractionCount (batch_update_memory cfg ex bg store id messages).calls = 1
    ∧ extractionCount (sequentialUpdates cfg ex bg store id messages).calls =
        messages.length := by
  constructor
  · exact runCycle_calls cfg ex bg store id messages
  · rw [sequentialUpdates, seq_foldl_calls]
    simp [extractionCount]

/-- C2: a cycle (`update` or `batch_update`) that fails with any error after it
starts leaves the stored MemoryRecord of the entity — in fact the whole store —
exactly as it was before the cycle: no partial writes are committed. -/
theorem failed_cycle_leaves_record (cfg : ManagerConfig) (ex : Extractor)
    (bg : BeliefGen) (store : MemoryStore) (id : String) (msg : String)
    (messages : List String) (e : MemError) :
    ((update_memory cfg ex bg store id msg).err = some e →
      (update_memory cfg ex bg store id msg).store id = store id
      ∧ (update_memory cfg ex bg store id msg).store = store)
    ∧ ((batch_update_memory cfg ex bg store id messages).err = some e →
      (batch_update_memory cfg ex bg store id messages).store id = store id
      ∧ (batch_update_memory cfg ex bg store id messages).store = store) := by
  constructor
  · intro h
    have hs := runCycle_err_store cfg ex bg store id [msg] e h
    exact ⟨congrFun hs id, hs⟩
  · intro h
    have hs := runCycle_err_store cfg ex bg store id messages e h
    exact ⟨congrFun hs id, hs⟩

theorem failed_cycle_leaves_record_witness :
    ((update_memory ⟨true, 5⟩ (fun _ _ => Except.error MemError.BackendError)
        (fun _ => Except.ok []) emptyStore "u1" "hello").err =
      some MemError.BackendError)
    ∧ (update_memory ⟨true, 5⟩ (fun _ _ => Except.error MemError.BackendError)
        (fun _ => Except.ok []) emptyStore "u1" "hello").store "u1" =
      emptyStore "u1"
    ∧ (batch_update_memory ⟨true, 5⟩ (fun _ _ => Except.error MemError.BackendError)
        (fun _ => Except.ok []) emptyStore "u1" ["a", "b"]).store "u1" =
      emptyStore "u1" :=
  ⟨rfl,
   ((failed_cycle_leaves_record ⟨true, 5⟩
      (fun _ _ => Except.error MemError.BackendError) (fun _ => Except.ok [])
      emptyStore "u1" "hello" ["a", "b"] MemError.BackendError).1 rfl).1,
   ((failed_cycle_leaves_record ⟨true, 5⟩
      (fun _ _ => Except.error MemError.BackendError) (fun _ => Except.ok [])
      emptyStore "u1" "hello" ["a", "b"] MemError.BackendError).2 rfl).1⟩

/-- C7: for an entity with no prior data (no MemoryRecord in the store), the
reads do not fail: `get_context` returns empty text and `get_beliefs` returns
the empty sequence. -/
theorem reads_empty_on_absent (store : MemoryStore) (id : String)
    (q : Option String) (h : store id = none) :
    get_memory_context store id q = "" ∧ get_beliefs store id = [] := by
  constructor
  · unfold get_memory_context
    rw [h]
  · unfold get_beliefs getRecord
    rw [h]
    rfl

theorem reads_empty_on_absent_witness :
    get_memory_context emptyStore "u1" none = ""
    ∧ get_beliefs emptyStore "u1" = [] :=
  reads_empty_on_absent emptyStore "u1" none rfl

/-- C9: the async cookbook helper `update_user_memory` issues exactly one
`update_memory` call per message, sequentially in list order, and only after all
of them calls `get_memory_context` and then `get_beliefs`. -/
theorem update_user_memory_trace (user_id : String) (messages : List String) :
    update_user_memory user_id messages =
      messages.map (fun m => ManagerCall.updateMemoryCall user_id m) ++
        [ManagerCall.getMemoryContextCall user_id,
         ManagerCall.getBeliefsCall user_id] := by
  induction messages with
  | nil => rfl
  | cons m ms ih => simp [update_user_memory, ih]

/-- C10: the LangGraph cookbook's `route` returns not_enough_info exactly below
5 human messages, enough_user_input exactly at 5, END above 5; and each
invocation of the `update_memory` node adds exactly one new entry to the shared
info mapping, holding the full rendered memory context under the key "fact". -/
theorem route_and_update_memory_node (messages : List MsgType)
    (cfg : ManagerConfig) (ex : Extractor) (bg : BeliefGen) (store : MemoryStore)
    (user_id freshKey : String) (stateMsgs : List String) :
    (route messages = RouteResult.notEnoughInfo ↔ numHumanInput messages < 5)
    ∧ (route messages = RouteResult.enoughUserInput ↔ numHumanInput messages = 5)
    ∧ (route messages = RouteResult.endRoute ↔ 5 < numHumanInput messages)
    ∧ (update_memory_node cfg ex bg store user_id freshKey stateMsgs).1.info =
        [(freshKey, [("fact",
          get_memory_context
            (batch_update_memory cfg ex bg store user_id stateMsgs).store
            user_id none)])]
    ∧ (update_memory_node cfg ex bg store user_id freshKey stateMsgs).1.info.length
        = 1 := by
  refine ⟨?_, ?_, ?_, rfl, rfl⟩ <;>
  · unfold route
    split_ifs with h1 h2 <;> simp_all <;> omega

theorem runCycle_store_frame (cfg : ManagerConfig) (ex : Extractor)
    (bg : BeliefGen) (store : MemoryStore) (id : String) (messages : List String)
    (k : String) (hk : k ≠ id) :
    (runCycle cfg ex bg store id messages).store k = store k := by
  unfold runCycle
  dsimp only
  cases hex : ex messages (getRecord store id).facts with
  | error e => rfl
  | ok ops =>
    dsimp only
    cases hc : (consolidate cfg bg (getRecord store id) ops).1 with
    | error e => rfl
    | ok newRec =>
      show putRecord store id newRec k = store k
      unfold putRecord
      simp [hk]

theorem runCycle_store_apply (cfg : ManagerConfig) (ex : Extractor)
    (bg : BeliefGen) (store : MemoryStore) (id : String) (messages : List String)
    (k : String) :
    (runCycle cfg ex bg store id messages).store k =
      if k = id then
        (match commitResult cfg ex bg (getRecord store id) messages with
         | none => store id
         | some r => some r)
      else store k := by
  unfold runCycle commitResult
  dsimp only
  cases hex : ex messages (getRecord store id).facts with
  | error e =>
    by_cases hk : k = id <;> simp [hk]
  | ok ops =>
    dsimp only
    cases hc : (consolidate cfg bg (getRecord store id) ops).1 with
    | error e => by_cases hk : k = id <;> simp [hk]
    | ok newRec =>
      show putRecord store id newRec k = _
      unfold putRecord
      rfl

theorem getRecord_congr (s s2 : MemoryStore) (id : String) (h : s id = s2 id) :
    getRecord s id = getRecord s2 id := by
  unfold getRecord
  rw [h]

theorem runCycle_comm (cfg : ManagerConfig) (ex : Extractor) (bg : BeliefGen)
    (store : MemoryStore) (a b : String) (ma mb : List String) (hab : a ≠ b) :
    (runCycle cfg ex bg (runCycle cfg ex bg store a ma).store b mb).store =
    (runCycle cfg ex bg (runCycle cfg ex bg store b mb).store a ma).store := by
  have hba : b ≠ a := hab.symm
  have hga : getRecord (runCycle cfg ex bg store b mb).store a = getRecord store a :=
    getRecord_congr _ _ a (runCycle_store_frame cfg ex bg store b mb a hab)
  have hgb : getRecord (runCycle cfg ex bg store a ma).store b = getRecord store b :=
    getRecord_congr _ _ b (runCycle_store_frame cfg ex bg store a ma b hba)
  funext k
  rw [runCycle_store_apply cfg ex bg (runCycle cfg ex bg store a ma).store b mb k,
    runCycle_store_apply cfg ex bg (runCycle cfg ex bg store b mb).store a ma k]
  by_cases hkb : k = b
  · subst hkb
    rw [if_pos rfl, if_neg hba, hgb,
      runCycle_store_frame cfg ex bg store a ma k hba,
      runCycle_store_apply cfg ex bg store k mb k, if_pos rfl]
  · by_cases hka : k = a
    · subst hka
      rw [if_neg hkb, if_pos rfl, hga,
        runCycle_store_frame cfg ex bg store b mb k hkb,
        runCycle_store_apply cfg ex bg store k ma k, if_pos rfl]
    · rw [if_neg hkb, if_neg hka,
        runCycle_store_frame cfg ex bg store a ma k hka,
        runCycle_store_frame cfg ex bg store b mb k hkb]

/-- C5: an update cycle for entity `a` leaves the record of any other entity `b`
unchanged, and cycles for distinct entities commute, so concurrent updates to
distinct entities cannot affect each other's MemoryRecord. -/
theorem entity_isolation (cfg : ManagerConfig) (ex : Extractor) (bg : BeliefGen)
    (store : MemoryStore) (a b : String) (ma mb : List String) (hab : a ≠ b) :
    (runCycle cfg ex bg store a ma).store b = store b
    ∧ (runCycle cfg ex bg (runCycle cfg ex bg store a ma).store b mb).store =
      (runCycle cfg ex bg (runCycle cfg ex bg store b mb).store a ma).store :=
  ⟨runCycle_store_frame cfg ex bg store a ma b hab.symm,
   runCycle_comm cfg ex bg store a b ma mb hab⟩

theorem entity_isolation_witness :
    ("u1" : String) ≠ "u2"
    ∧ (runCycle ⟨false, 5⟩ (fun _ _ => Except.ok []) (fun _ => Except.ok [])
        emptyStore "u1" ["m1"]).store "u2" = emptyStore "u2"
    ∧ (runCycle ⟨false, 5⟩ (fun _ _ => Except.ok []) (fun _ => Except.ok [])
        (runCycle ⟨false, 5⟩ (fun _ _ => Except.ok []) (fun _ => Except.ok [])
          emptyStore "u1" ["m1"]).store "u2" ["m2"]).store =
      (runCycle ⟨false, 5⟩ (fun _ _ => Except.ok []) (fun _ => Except.ok [])
        (runCycle ⟨false, 5⟩ (fun _ _ => Except.ok []) (fun _ => Except.ok [])
          emptyStore "u2" ["m2"]).store "u1" ["m1"]).store :=
  ⟨by decide,
   (entity_isolation ⟨false, 5⟩ (fun _ _ => Except.ok []) (fun _ => Except.ok [])
      emptyStore "u1" "u2" ["m1"] ["m2"] (by decide)).1,
   (entity_isolation ⟨false, 5⟩ (fun _ _ => Except.ok []) (fun _ => Except.ok [])
      emptyStore "u1" "u2" ["m1"] ["m2"] (by decide)).2⟩

theorem dedup_append_singleton (facts : List Fact) (f : Fact)
    (hd : DedupFacts facts)
    (hf : ∀ g ∈ facts, g.normalized_text ≠ f.normalized_text) :
    DedupFacts (facts ++ [f]) := by
  rw [DedupFacts, List.pairwise_append]
  refine ⟨hd, List.pairwise_singleton _ _, ?_⟩
  intro a ha b hb
  rw [List.mem_singleton] at hb
  subst hb
  exact hf a ha

theorem dedup_applyOp (facts : List Fact) (op : FactOp) (hd : DedupFacts facts) :
    DedupFacts (applyOp facts op) := by
  cases op with
  | add f =>
    unfold applyOp
    dsimp only
    split
    · exact hd
    · next h =>
      apply dedup_append_singleton _ _ hd
      intro g hg he
      apply h
      rw [List.any_eq_true]
      refine ⟨g, hg, ?_⟩
      rw [beq_iff_eq]
      exact he
  | replace old_ref f =>
    unfold applyOp
    dsimp only
    have hrest : DedupFacts (facts.filter fun g => g.normalized_text != old_ref) :=
      hd.sublist (List.filter_sublist facts)
    split
    · exact hrest
    · next h =>
      apply dedup_append_singleton _ _ hrest
      intro g hg he
      apply h
      rw [List.any_eq_true]
      refine ⟨g, hg, ?_⟩
      rw [beq_iff_eq]
      exact he

theorem dedup_applyOps (ops : List FactOp) : ∀ facts, DedupFacts facts →
    DedupFacts (applyOps facts ops) := by
  induction ops with
  | nil => intro facts hd; exact hd
  | cons op rest ih =>
    intro facts hd
    rw [applyOps, List.foldl_cons]
    exact ih _ (dedup_applyOp facts op hd)

theorem dedup_keepNewest (m : Nat) (facts : List Fact) (hd : DedupFacts facts) :
    DedupFacts (keepNewest m facts) := by
  unfold keepNewest
  split
  · exact hd
  · have hperm : (List.insertionSort factLe facts).Perm facts :=
      List.perm_insertionSort factLe facts
    have hsorted : DedupFacts (List.insertionSort factLe facts) :=
      (hperm.pairwise_iff (fun h he => h he.symm)).mpr hd
    exact hsorted.sublist (List.drop_sublist _ _)

theorem dedup_consolidateFacts (m : Nat) (facts : List Fact) (ops : List FactOp)
    (hd : DedupFacts facts) : DedupFacts (consolidateFacts m facts ops) :=
  dedup_keepNewest m _ (dedup_applyOps ops facts hd)

theorem consolidate_ok_fields (cfg : ManagerConfig) (bg : BeliefGen)
    (rec : MemoryRecord) (ops : List FactOp) (newRec : MemoryRecord)
    (h : (consolidate cfg bg rec ops).1 = .ok newRec) :
    newRec.facts = consolidateFacts cfg.max_facts rec.facts ops
    ∧ (cfg.include_beliefs = false → newRec.beliefs = []) := by
  unfold consolidate at h
  dsimp only at h
  split at h
  · next hb =>
    cases hbg : bg (consolidateFacts cfg.max_facts rec.facts ops) with
    | error e =>
      rw [hbg] at h
      simp at h
    | ok bs =>
      rw [hbg] at h
      dsimp only at h
      injection h with h2
      subst h2
      refine ⟨rfl, ?_⟩
      intro hf
      rw [hf] at hb
      simp at hb
  · next hb =>
    injection h with h2
    subst h2
    exact ⟨rfl, fun _ => rfl⟩

theorem commitResult_fields (cfg : ManagerConfig) (ex : Extractor)
    (bg : BeliefGen) (rec : MemoryRecord) (messages : List String)
    (r : MemoryRecord) (h : commitResult cfg ex bg rec messages = some r) :
    (∃ ops, r.facts = consolidateFacts cfg.max_facts rec.facts ops)
    ∧ (cfg.include_beliefs = false → r.beliefs = []) := by
  unfold commitResult at h
  cases hex : ex messages rec.facts with
  | error e =>
    rw [hex] at h
    simp at h
  | ok ops =>
    rw [hex] at h
    dsimp only at h
    cases hc : (consolidate cfg bg rec ops).1 with
    | error e =>
      rw [hc] at h
      simp at h
    | ok nr =>
      rw [hc] at h
      injection h with h2
      subst h2
      have hcf := consolidate_ok_fields cfg bg rec ops nr hc
      exact ⟨⟨ops, hcf.1⟩, hcf.2⟩

theorem storeDedup_runCycle (cfg : ManagerConfig) (ex : Extractor)
    (bg : BeliefGen) (store : MemoryStore) (id : String)
    (messages : List String) (h : StoreDedup store) :
    StoreDedup (runCycle cfg ex bg store id messages).store := by
  intro k
  unfold getRecord
  rw [runCycle_store_apply cfg ex bg store id messages k]
  by_cases hk : k = id
  · subst hk
    rw [if_pos rfl]
    cases hcr : commitResult cfg ex bg (getRecord store k) messages with
    | none =>
      dsimp only
      exact h k
    | some r =>
      dsimp only [Option.getD]
      obtain ⟨⟨ops, hf⟩, _⟩ := commitResult_fields cfg ex bg
        (getRecord store k) messages r hcr
      rw [hf]
      exact dedup_consolidateFacts cfg.max_facts _ ops (h k)
  · rw [if_neg hk]
    exact h k

theorem storeDedup_runScript (cfg : ManagerConfig) (ex : Extractor)
    (bg : BeliefGen) (script : List (String × List String)) :
    ∀ store, StoreDedup store → StoreDedup (runScript cfg ex bg store script) := by
  induction script with
  | nil => intro store h; exact h
  | cons p rest ih =>
    intro store h
    obtain ⟨pid, pmsgs⟩ := p
    exact ih _ (storeDedup_runCycle cfg ex bg store pid pmsgs h)

theorem storeDedup_empty : StoreDedup emptyStore := by
  intro id
  exact List.Pairwise.nil

/-- C4: in every reachable MemoryRecord no two facts share a normalized text,
and an `add` whose normalized text is already present leaves the fact list
unchanged, so repeating an identical fact-bearing message cannot duplicate a
fact. -/
theorem fact_dedup_invariant (cfg : ManagerConfig) (ex : Extractor)
    (bg : BeliefGen) (script : List (String × List String)) (id : String) :
    DedupFacts (getRecord (runScript cfg ex bg emptyStore script) id).facts
    ∧ ∀ facts f,
        facts.any
          (fun g => g.normalized_text == (normFact f).normalized_text) = true →
        applyOp facts (.add f) = facts := by
  constructor
  · exact storeDedup_runScript cfg ex bg script emptyStore storeDedup_empty id
  · intro facts f hp
    unfold applyOp
    dsimp only
    rw [if_pos hp]

theorem fact_dedup_invariant_witness :
    (DedupFacts (getRecord (runScript ⟨false, 5⟩
      (fun _ _ => Except.ok [FactOp.add ⟨"", "I have a dog", 1, "m1"⟩])
      (fun _ => Except.ok []) emptyStore
      [("u1", ["I have a dog"]), ("u1", ["I have a dog"])]) "u1").facts)
    ∧ ([⟨"ihaveadog", "I have a dog", 1, "m1"⟩] : List Fact).any
        (fun g => g.normalized_text ==
          (normFact ⟨"", "I have a dog", 2, "m2"⟩).normalized_text) = true
    ∧ applyOp [⟨"ihaveadog", "I have a dog", 1, "m1"⟩]
        (.add ⟨"", "I have a dog", 2, "m2"⟩) =
        [⟨"ihaveadog", "I have a dog", 1, "m1"⟩] := by
  refine ⟨(fact_dedup_invariant ⟨false, 5⟩
      (fun _ _ => Except.ok [FactOp.add ⟨"", "I have a dog", 1, "m1"⟩])
      (fun _ => Except.ok [])
      [("u1", ["I have a dog"]), ("u1", ["I have a dog"])] "u1").1, by decide, ?_⟩
  exact (fact_dedup_invariant ⟨false, 5⟩
      (fun _ _ => Except.ok [FactOp.add ⟨"", "I have a dog", 1, "m1"⟩])
      (fun _ => Except.ok [])
      [("u1", ["I have a dog"]), ("u1", ["I have a dog"])] "u1").2
      [⟨"ihaveadog", "I have a dog", 1, "m1"⟩]
      ⟨"", "I have a dog", 2, "m2"⟩ (by decide)

theorem storeNoBeliefs_runCycle (cfg : ManagerConfig) (ex : Extractor)
    (bg : BeliefGen) (store : MemoryStore) (id : String)
    (messages : List String) (hcfg : cfg.include_beliefs = false)
    (h : StoreNoBeliefs store) :
    StoreNoBeliefs (runCycle cfg ex bg store id messages).store := by
  intro k
  unfold getRecord
  rw [runCycle_store_apply cfg ex bg store id messages k]
  by_cases hk : k = id
  · subst hk
    rw [if_pos rfl]
    cases hcr : commitResult cfg ex bg (getRecord store k) messages with
    | none =>
      dsimp only
      exact h k
    | some r =>
      dsimp only [Option.getD]
      exact (commitResult_fields cfg ex bg (getRecord store k) messages r hcr).2 hcfg
  · rw [if_neg hk]
    exact h k

theorem storeNoBeliefs_runScript (cfg : ManagerConfig) (ex : Extractor)
    (bg : BeliefGen) (hcfg : cfg.include_beliefs = false)
    (script : List (String × List String)) :
    ∀ store, StoreNoBeliefs store →
      StoreNoBeliefs (runScript cfg ex bg store script) := by
  induction script with
  | nil => intro store h; exact h
  | cons p rest ih =>
    intro store h
    obtain ⟨pid, pmsgs⟩ := p
    exact ih _ (storeNoBeliefs_runCycle cfg ex bg store pid pmsgs hcfg h)

theorem storeNoBeliefs_empty : StoreNoBeliefs emptyStore := fun _ => rfl

/-- C6: when the manager is constructed with `include_beliefs = false`,
`get_beliefs` returns the empty sequence for every entity, however many update
cycles have run and whatever facts they stored; and on a store with no prior
data it is empty as well (not yet generated). -/
theorem belief_gating (cfg : ManagerConfig) (ex : Extractor) (bg : BeliefGen)
    (script : List (String × List String)) (id : String)
    (hcfg : cfg.include_beliefs = false) :
    get_beliefs (runScript cfg ex bg emptyStore script) id = []
    ∧ get_beliefs emptyStore id = [] :=
  ⟨storeNoBeliefs_runScript cfg ex bg hcfg script emptyStore storeNoBeliefs_empty id,
   rfl⟩

theorem belief_gating_witness :
    get_beliefs (runScript ⟨false, 5⟩
      (fun _ _ => Except.ok [FactOp.add ⟨"", "I live in NYC", 1, "m1"⟩])
      (fun _ => Except.ok [⟨"some belief", [], 1⟩]) emptyStore
      [("u1", ["I live in NYC"])]) "u1" = []
    ∧ get_beliefs emptyStore "u1" = [] :=
  belief_gating ⟨false, 5⟩
    (fun _ _ => Except.ok [FactOp.add ⟨"", "I live in NYC", 1, "m1"⟩])
    (fun _ => Except.ok [⟨"some belief", [], 1⟩])
    [("u1", ["I live in NYC"])] "u1" rfl

theorem keepNewest_of_gt (m : Nat) (facts : List Fact) (h : m < facts.length) :
    keepNewest m facts =
      (List.insertionSort factLe facts).drop (facts.length - m) := by
  unfold keepNewest
  rw [if_neg (by omega)]

theorem keepNewest_length (m : Nat) (facts : List Fact) (h : m < facts.length) :
    (keepNewest m facts).length = m := by
  rw [keepNewest_of_gt m facts h, List.length_drop,
    (List.perm_insertionSort factLe facts).length_eq]
  omega

theorem keepNewest_subset (m : Nat) (facts : List Fact) (h : m < facts.length) :
    ∀ r ∈ keepNewest m facts, r ∈ facts := by
  intro r hr
  rw [keepNewest_of_gt m facts h] at hr
  have hmem := (List.drop_sublist _ _).subset hr
  rw [List.mem_insertionSort] at hmem
  exact hmem

theorem keepNewest_oldest_first (m : Nat) (facts : List Fact)
    (h : m < facts.length) :
    ∀ e ∈ facts, e ∉ keepNewest m facts →
      ∀ r ∈ keepNewest m facts, e.created_at ≤ r.created_at := by
  intro e he hne r hr
  rw [keepNewest_of_gt m facts h] at hne hr
  have hsort : List.Pairwise factLe (List.insertionSort factLe facts) :=
    List.sorted_insertionSort factLe facts
  have hsplit : List.insertionSort factLe facts =
      (List.insertionSort factLe facts).take (facts.length - m) ++
        (List.insertionSort factLe facts).drop (facts.length - m) :=
    (List.take_append_drop _ _).symm
  have hpw := hsplit ▸ hsort
  rw [List.pairwise_append] at hpw
  have hmem : e ∈ List.insertionSort factLe facts := by
    rw [List.mem_insertionSort]
    exact he
  rw [hsplit, List.mem_append] at hmem
  cases hmem with
  | inl htake => exact hpw.2.2 e htake r hr
  | inr hdrop => exact absurd hdrop hne

/-- C8: when the post-merge fact count exceeds `max_facts`, consolidation keeps
exactly `max_facts` facts, all drawn from the merged set, and every evicted fact
is no newer (by `created_at`) than every kept fact — the oldest-first eviction
policy.  `max_facts` is a field of the construction-time `ManagerConfig`, which
the model passes unchanged to every cycle. -/
theorem max_facts_eviction (cfg : ManagerConfig) (facts : List Fact)
    (ops : List FactOp) (h : cfg.max_facts < (applyOps facts ops).length) :
    (consolidateFacts cfg.max_facts facts ops).length = cfg.max_facts
    ∧ (∀ r ∈ consolidateFacts cfg.max_facts facts ops, r ∈ applyOps facts ops)
    ∧ (∀ e ∈ applyOps facts ops, e ∉ consolidateFacts cfg.max_facts facts ops →
        ∀ r ∈ consolidateFacts cfg.max_facts facts ops,
          e.created_at ≤ r.created_at) := by
  unfold consolidateFacts
  exact ⟨keepNewest_length _ _ h, keepNewest_subset _ _ h,
    keepNewest_oldest_first _ _ h⟩

theorem max_facts_eviction_witness :
    1 < (applyOps [] [FactOp.add ⟨"", "has a dog", 1, "p"⟩,
          FactOp.add ⟨"", "lives in NYC", 2, "q"⟩]).length
    ∧ (consolidateFacts 1 [] [FactOp.add ⟨"", "has a dog", 1, "p"⟩,
          FactOp.add ⟨"", "lives in NYC", 2, "q"⟩]).length = 1
    ∧ (∀ r ∈ consolidateFacts 1 [] [FactOp.add ⟨"", "has a dog", 1, "p"⟩,
          FactOp.add ⟨"", "lives in NYC", 2, "q"⟩],
        r ∈ applyOps [] [FactOp.add ⟨"", "has a dog", 1, "p"⟩,
          FactOp.add ⟨"", "lives in NYC", 2, "q"⟩]) :=
  ⟨by decide,
   (max_facts_eviction ⟨false, 1⟩ [] [FactOp.add ⟨"", "has a dog", 1, "p"⟩,
      FactOp.add ⟨"", "lives in NYC", 2, "q"⟩] (by decide)).1,
   (max_facts_eviction ⟨false, 1⟩ [] [FactOp.add ⟨"", "has a dog", 1, "p"⟩,
      FactOp.add ⟨"", "lives in NYC", 2, "q"⟩] (by decide)).2.1⟩

theorem sysInv_init (cfg : ManagerConfig) (ex : Extractor) (bg : BeliefGen)
    (msgsOf : Nat → List String) (n : Nat) (rec0 : MemoryRecord) :
    SysInv cfg ex bg msgsOf n rec0 (initSys rec0) := by
  refine ⟨rfl, ?_, List.nodup_nil, ?_, ?_⟩
  · intro i snap h
    exact absurd h (by simp [initSys])
  · intro i
    simp [initSys]
  · intro i h
    exact absurd rfl h

theorem sysInv_step (cfg : ManagerConfig) (ex : Extractor) (bg : BeliefGen)
    (msgsOf : Nat → List String) (n : Nat) (rec0 : MemoryRecord)
    (s : TaskSys) (i : Nat) (h : SysInv cfg ex bg msgsOf n rec0 s) :
    SysInv cfg ex bg msgsOf n rec0 (taskStep cfg ex bg msgsOf n s i) := by
  obtain ⟨h1, h2, h3, h4, h5⟩ := h
  unfold SysInv taskStep
  by_cases hin : i < n
  · rw [if_pos hin]
    cases hph : s.phase i with
    | pending =>
      dsimp only
      cases hh : s.holder with
      | none =>
        dsimp only
        refine ⟨h1, ?_, h3, ?_, ?_⟩
        · intro j snap hj
          by_cases hji : j = i
          · subst hji
            rw [if_pos rfl] at hj
            injection hj with he
            exact ⟨rfl, he.symm⟩
          · rw [if_neg hji] at hj
            have := (h2 j snap hj).1
            rw [hh] at this
            cases this
        · intro j
          by_cases hji : j = i
          · subst hji
            rw [if_pos rfl]
            constructor
            · intro hfin
              cases hfin
            · intro hmem
              have := (h4 j).mpr hmem
              rw [hph] at this
              cases this
          · rw [if_neg hji]
            exact h4 j
        · intro j hj
          by_cases hji : j = i
          · subst hji
            exact hin
          · rw [if_neg hji] at hj
            exact h5 j hj
      | some k =>
        exact ⟨h1, h2, h3, h4, h5⟩
    | locked snap =>
      dsimp only
      obtain ⟨hhold, hsnap⟩ := h2 i snap hph
      have hnotmem : i ∉ s.committed := by
        intro hmem
        have := (h4 i).mpr hmem
        rw [hph] at this
        cases this
      refine ⟨?_, ?_, ?_, ?_, ?_⟩
      · rw [hsnap, h1]
        unfold seqApply
        rw [List.foldl_append]
        rfl
      · intro j snap2 hj
        by_cases hji : j = i
        · subst hji
          rw [if_pos rfl] at hj
          cases hj
        · rw [if_neg hji] at hj
          have := (h2 j snap2 hj).1
          rw [hhold] at this
          injection this with he
          exact absurd he.symm hji
      · rw [List.nodup_append]
        refine ⟨h3, List.nodup_singleton _, ?_⟩
        intro a ha hai
        rw [List.mem_singleton] at hai
        subst hai
        exact hnotmem ha
      · intro j
        by_cases hji : j = i
        · subst hji
          rw [if_pos rfl]
          simp
        · rw [if_neg hji]
          rw [List.mem_append, List.mem_singleton]
          constructor
          · intro hfin
            exact Or.inl ((h4 j).mp hfin)
          · intro hmem
            cases hmem with
            | inl hm => exact (h4 j).mpr hm
            | inr hm => exact absurd hm hji
      · intro j hj
        by_cases hji : j = i
        · subst hji
          exact hin
        · rw [if_neg hji] at hj
          exact h5 j hj
    | finished =>
      exact ⟨h1, h2, h3, h4, h5⟩
  · rw [if_neg hin]
    exact ⟨h1, h2, h3, h4, h5⟩

theorem sysInv_runSched (cfg : ManagerConfig) (ex : Extractor) (bg : BeliefGen)
    (msgsOf : Nat → List String) (n : Nat) (rec0 : MemoryRecord)
    (sched : List Nat) :
    SysInv cfg ex bg msgsOf n rec0 (runSched cfg ex bg msgsOf n rec0 sched) := by
  rw [runSched]
  have main : ∀ s, SysInv cfg ex bg msgsOf n rec0 s →
      SysInv cfg ex bg msgsOf n rec0
        (sched.foldl (taskStep cfg ex bg msgsOf n) s) := by
    induction sched with
    | nil => intro s hs; exact hs
    | cons j rest ih =>
      intro s hs
      rw [List.foldl_cons]
      exact ih _ (sysInv_step cfg ex bg msgsOf n rec0 s j hs)
  exact main _ (sysInv_init cfg ex bg msgsOf n rec0)

/-- C3: under any schedule, the committed record of an entity always equals the
sequential application of the already-committed updates in commit order (so no
interleaved partial state is observable), the committed tasks are distinct and
in range, at most one task holds the entity guard at any time, and once every
task has finished the commit order is a permutation of all issued updates. -/
theorem per_entity_serialization (cfg : ManagerConfig) (ex : Extractor)
    (bg : BeliefGen) (msgsOf : Nat → List String) (n : Nat)
    (rec0 : MemoryRecord) (sched : List Nat) :
    (runSched cfg ex bg msgsOf n rec0 sched).record =
      seqApply cfg ex bg msgsOf rec0
        (runSched cfg ex bg msgsOf n rec0 sched).committed
    ∧ (runSched cfg ex bg msgsOf n rec0 sched).committed.Nodup
    ∧ (∀ i ∈ (runSched cfg ex bg msgsOf n rec0 sched).committed, i < n)
    ∧ (∀ i j snapi snapj,
        (runSched cfg ex bg msgsOf n rec0 sched).phase i = .locked snapi →
        (runSched cfg ex bg msgsOf n rec0 sched).phase j = .locked snapj →
        i = j)
    ∧ ((∀ i, i < n →
          (runSched cfg ex bg msgsOf n rec0 sched).phase i = .finished) →
        (runSched cfg ex bg msgsOf n rec0 sched).committed.Perm
          (List.range n)) := by
  obtain ⟨h1, h2, h3, h4, h5⟩ := sysInv_runSched cfg ex bg msgsOf n rec0 sched
  refine ⟨h1, h3, ?_, ?_, ?_⟩
  · intro i hmem
    apply h5
    rw [(h4 i).mpr hmem]
    intro hcon
    cases hcon
  · intro i j snapi snapj hi hj
    have hhi := (h2 i snapi hi).1
    have hhj := (h2 j snapj hj).1
    rw [hhi] at hhj
    injection hhj
  · intro hall
    rw [List.perm_ext_iff_of_nodup h3 (List.nodup_range n)]
    intro a
    rw [List.mem_range]
    constructor
    · intro hmem
      apply h5
      rw [(h4 a).mpr hmem]
      intro hcon
      cases hcon
    · intro ha
      exact (h4 a).mp (hall a ha)

theorem per_entity_serialization_witness :
    (∀ i, i < 2 →
      (runSched ⟨false, 5⟩ (fun _ _ => Except.ok []) (fun _ => Except.ok [])
        (fun _ => ["hello"]) 2 (initRecord "u1") [0, 0, 1, 1]).phase i =
        TaskPhase.finished)
    ∧ (runSched ⟨false, 5⟩ (fun _ _ => Except.ok []) (fun _ => Except.ok [])
        (fun _ => ["hello"]) 2 (initRecord "u1") [0, 0, 1, 1]).committed.Perm
        (List.range 2)
    ∧ (runSched ⟨false, 5⟩ (fun _ _ => Except.ok []) (fun _ => Except.ok [])
        (fun _ => ["hello"]) 2 (initRecord "u1") [0, 0, 1, 1]).record =
      seqApply ⟨false, 5⟩ (fun _ _ => Except.ok []) (fun _ => Except.ok [])
        (fun _ => ["hello"]) (initRecord "u1")
        (runSched ⟨false, 5⟩ (fun _ _ => Except.ok []) (fun _ => Except.ok [])
          (fun _ => ["hello"]) 2 (initRecord "u1") [0, 0, 1, 1]).committed :=
  ⟨by decide,
   (per_entity_serialization ⟨false, 5⟩ (fun _ _ => Except.ok [])
      (fun _ => Except.ok []) (fun _ => ["hello"]) 2 (initRecord "u1")
      [0, 0, 1, 1]).2.2.2.2 (by decide),
   (per_entity_serialization ⟨false, 5⟩ (fun _ _ => Except.ok [])
      (fun _ => Except.ok []) (fun _ => ["hello"]) 2 (initRecord "u1")
      [0, 0, 1, 1]).1⟩

end GptMemory
